import Mathlib

/-!
Verification of the sprite-sheet compositor of `tools/render_ball.py`
(`render_sprite_sheet`, duplicated in `tools/render_from_blend.py` and
`tools/tweak_ball.py`).

The compositor loads `FRAME_COUNT` rendered RGBA frames from a scratch
directory, allocates a sheet of width `w * FRAME_COUNT` and height `h`
(dimensions taken from the first frame), copies every frame into the sheet
with a per-pixel slice assignment

    src_idx = (y * width + x) * 4
    dst_idx = (y * width * FRAME_COUNT + x_offset + x) * 4
    sheet_pixels[dst_idx:dst_idx+4] = frame_pixels[src_idx:src_idx+4]

and finally saves the sheet and removes the scratch directory.

Pixel buffers are embedded as flat `List Nat` in row-major RGBA order,
exactly like `list(img.pixels)` in the code.  Python slice reads and
slice assignments are embedded by `getSlice` and `setSlice` with Python's
clamping behaviour.  The effectful shell (frame loads that may fail, the
final save, the scratch-directory removal) is embedded as a function
returning an event trace together with an `Except` result.
-/

/-- Number of frames composited by the scripts (`FRAME_COUNT = 25`). -/
def FRAME_COUNT : Nat := 25

/-- A raster image as the scripts see it through the host API: a width,
a height, an alpha flag and a flat row-major RGBA sample buffer. -/
structure Image where
  width : Nat
  height : Nat
  alpha : Bool
  pixels : List Nat
deriving DecidableEq, Repr

/-- Python slice read `l[i:i+n]` on a list (clamping, never failing). -/
def getSlice (l : List Nat) (i n : Nat) : List Nat :=
  (l.drop i).take n

/-- Python slice assignment `l[i:i+n] = r` on a list (clamping, never
failing; the result length can differ from `l.length` when the slice is
clamped or `r.length ≠ n`). -/
def setSlice (l : List Nat) (i n : Nat) (r : List Nat) : List Nat :=
  l.take i ++ r ++ l.drop (i + n)

/-- `src_idx = (y * width + x) * 4` from the copy loop. -/
def srcIdx (w y x : Nat) : Nat := (y * w + x) * 4

/-- `dst_idx = (y * width * FRAME_COUNT + x_offset + x) * 4` from the
copy loop (`N` is the frame count, `xOff` the frame's column offset). -/
def dstIdx (N w xOff y x : Nat) : Nat := (y * w * N + xOff + x) * 4

/-- One iteration of the innermost loop:
`sheet_pixels[dst_idx:dst_idx+4] = frame_pixels[src_idx:src_idx+4]`. -/
def copyPixel (N w xOff : Nat) (fp sheet : List Nat) (y x : Nat) : List Nat :=
  setSlice sheet (dstIdx N w xOff y x) 4 (getSlice fp (srcIdx w y x) 4)

/-- The loop `for x in range(width)` of the copy loop, at a fixed row. -/
def copyRowPixels (N w xOff : Nat) (fp : List Nat) (y : Nat) (sheet : List Nat) : List Nat :=
  (List.range w).foldl (fun s x => copyPixel N w xOff fp s y x) sheet

/-- The loop `for y in range(height)`: copy one whole frame into the
sheet at column offset `xOff`. -/
def copyFrame (N w h xOff : Nat) (fp sheet : List Nat) : List Nat :=
  (List.range h).foldl (fun s y => copyRowPixels N w xOff fp y s) sheet

/-- The loop `for frame in range(1, FRAME_COUNT + 1)` restricted to its
pure pixel-copying effect: frame at list position `j` is copied with
`x_offset = (i0 + j) * w`. -/
def compositeAux (N w h : Nat) : List (List Nat) → Nat → List Nat → List Nat
  | [], _, sheet => sheet
  | fp :: rest, i0, sheet =>
      compositeAux N w h rest (i0 + 1) (copyFrame N w h (i0 * w) fp sheet)

/-- Pure core of the compositor: copy the buffers of all frames, in
order, into the sheet buffer. -/
def compositeFrames (N w h : Nat) (frames : List (List Nat)) (sheet : List Nat) : List Nat :=
  compositeAux N w h frames 0 sheet

/-- The RGBA quadruple of the pixel at `(x, y)` of a flat row-major
buffer whose image width is `imgW`. -/
def pixelAt (imgW : Nat) (buf : List Nat) (x y : Nat) : List Nat :=
  getSlice buf ((y * imgW + x) * 4) 4

/-- The spec's description of the copy (spec §4.1, algorithm step 3):
for each row `y` copy the contiguous run of `w * 4` channel samples of
the frame's row `y` into the sheet's row `y` at column offset `xOff`,
as a single contiguous block.  Stated from the spec's words, for
comparison with the per-pixel loop `copyRowPixels` of the code. -/
def specRowCopy (N w xOff : Nat) (fp : List Nat) (y : Nat) (sheet : List Nat) : List Nat :=
  setSlice sheet ((y * w * N + xOff) * 4) (w * 4) (getSlice fp (y * w * 4) (w * 4))

/-- Observable effects of `render_sprite_sheet` on the world: loading a
frame file from the scratch directory, saving the sheet to the output
path, removing the scratch directory. -/
inductive Event where
  | loadFrame : Nat → Event
  | writeSheet : Event
  | rmtree : Event
deriving DecidableEq, Repr

/-- A failure of the compositing run: `bpy.data.images.load` raising on
frame `i` (missing or undecodable file). -/
inductive Err where
  | loadFailure : Nat → Err
deriving DecidableEq, Repr

/-- Whether an `Except` result is a success. -/
def isOkE {ε α : Type} : Except ε α → Bool
  | Except.ok _ => true
  | Except.error _ => false

/-- The frame loop of `render_sprite_sheet`, starting at frame index `i`
with `k` frames left to process: load the frame (aborting the whole run
on failure, as the uncaught exception does), copy it into the sheet at
`x_offset = (i - 1) * w`, continue.  Returns the event trace together
with the resulting sheet buffer or the error. -/
def loopFrom (loader : Nat → Option Image) (N w h : Nat) :
    Nat → Nat → List Nat → List Event × Except Err (List Nat)
  | _, 0, sheet => ([], Except.ok sheet)
  | i, k + 1, sheet =>
      match loader i with
      | none => ([Event.loadFrame i], Except.error (Err.loadFailure i))
      | some img =>
          let res := loopFrom loader N w h (i + 1) k
            (copyFrame N w h ((i - 1) * w) img.pixels sheet)
          (Event.loadFrame i :: res.fst, res.snd)

/-- `render_sprite_sheet` from `tools/render_ball.py`, lines 298-342
(the compositing phase; the preceding render loop only produces the
frame files that `loader` reads back).  Loads the first frame for its
dimensions, creates the sheet image via `bpy.data.images.new(width *
FRAME_COUNT, height, alpha=True)` (`newImage` is the host's buffer for a
requested width and height), runs the frame loop, then saves the sheet
and removes the scratch directory.  An uncaught load failure aborts
before the save and before the cleanup. -/
def render_sprite_sheet (N : Nat) (loader : Nat → Option Image)
    (newImage : Nat → Nat → List Nat) : List Event × Except Err Image :=
  match loader 1 with
  | none => ([Event.loadFrame 1], Except.error (Err.loadFailure 1))
  | some first =>
      let res := loopFrom loader N first.width first.height 1 N
        (newImage (first.width * N) first.height)
      match res.snd with
      | Except.error e => (Event.loadFrame 1 :: res.fst, Except.error e)
      | Except.ok px =>
          (Event.loadFrame 1 :: res.fst ++ [Event.writeSheet, Event.rmtree],
           Except.ok (Image.mk (first.width * N) first.height true px))

/-- The pixel buffers of frames `i, i+1, ..., i+k-1` as loaded by
`loader`, or `none` if any of those loads fails. -/
def framesFrom (loader : Nat → Option Image) : Nat → Nat → Option (List (List Nat))
  | _, 0 => some []
  | i, k + 1 =>
      match loader i, framesFrom loader (i + 1) k with
      | some img, some rest => some (img.pixels :: rest)
      | _, _ => none

/-! ### Slice lemmas -/

theorem getSlice_length (l : List Nat) (i n : Nat) (h : i + n ≤ l.length) :
    (getSlice l i n).length = n := by
  simp [getSlice]
  omega

theorem getSlice_getElem (l : List Nat) (i n j : Nat) (hj : j < n) :
    (getSlice l i n)[j]? = l[i + j]? := by
  simp [getSlice, List.getElem?_take, hj, List.getElem?_drop]

theorem getSlice_zero (l : List Nat) (i : Nat) : getSlice l i 0 = [] := by
  simp [getSlice]

theorem setSlice_length (l r : List Nat) (i n : Nat)
    (hr : r.length = n) (hin : i + n ≤ l.length) :
    (setSlice l i n r).length = l.length := by
  simp [setSlice]
  omega

theorem setSlice_zero (l : List Nat) (i : Nat) : setSlice l i 0 [] = l := by
  simp [setSlice]

theorem setSlice_getElem_lt (l r : List Nat) (i n p : Nat)
    (hp : p < i) (hil : i ≤ l.length) :
    (setSlice l i n r)[p]? = l[p]? := by
  have h1 : p < (l.take i).length := by
    simp [List.length_take]
    omega
  have h2 : p < (l.take i ++ r).length := by
    simp [List.length_append]
    omega
  calc (setSlice l i n r)[p]?
      = ((l.take i ++ r) ++ l.drop (i + n))[p]? := rfl
    _ = (l.take i ++ r)[p]? := List.getElem?_append_left h2
    _ = (l.take i)[p]? := List.getElem?_append_left h1
    _ = l[p]? := by rw [List.getElem?_take]; simp [hp]

theorem setSlice_getElem_mid (l r : List Nat) (i n c : Nat)
    (hc : c < r.length) (hil : i ≤ l.length) :
    (setSlice l i n r)[i + c]? = r[c]? := by
  have hlen : (l.take i).length = i := by
    simp [List.length_take]
    omega
  have h2 : i + c < (l.take i ++ r).length := by
    simp [List.length_append]
    omega
  calc (setSlice l i n r)[i + c]?
      = ((l.take i ++ r) ++ l.drop (i + n))[i + c]? := rfl
    _ = (l.take i ++ r)[i + c]? := List.getElem?_append_left h2
    _ = r[i + c - (l.take i).length]? := List.getElem?_append_right (by omega)
    _ = r[c]? := by rw [hlen]; congr 1; omega

theorem setSlice_getElem_ge (l r : List Nat) (i n p : Nat)
    (hr : r.length = n) (hin : i + n ≤ l.length) (hp : i + n ≤ p) :
    (setSlice l i n r)[p]? = l[p]? := by
  have hlen : (l.take i ++ r).length = i + n := by
    simp [List.length_append, List.length_take]
    omega
  calc (setSlice l i n r)[p]?
      = ((l.take i ++ r) ++ l.drop (i + n))[p]? := rfl
    _ = (l.drop (i + n))[p - (i + n)]? := by
        rw [List.getElem?_append_right (by omega)]
        rw [hlen]
    _ = l[(i + n) + (p - (i + n))]? := List.getElem?_drop l (i + n) (p - (i + n))
    _ = l[p]? := by congr 1; omega

theorem setSlice_setSlice (l r₁ r₂ : List Nat) (i n m : Nat)
    (hr : r₁.length = n) (hin : i + n ≤ l.length) :
    setSlice (setSlice l i n r₁) (i + n) m r₂ = setSlice l i (n + m) (r₁ ++ r₂) := by
  have hL : (l.take i ++ r₁).length = i + n := by
    simp [List.length_append, List.length_take]
    omega
  have htake : (setSlice l i n r₁).take (i + n) = l.take i ++ r₁ := by
    show ((l.take i ++ r₁) ++ l.drop (i + n)).take (i + n) = l.take i ++ r₁
    exact List.take_left' hL
  have hdrop : (setSlice l i n r₁).drop (i + n + m) = l.drop (i + n + m) := by
    show ((l.take i ++ r₁) ++ l.drop (i + n)).drop (i + n + m) = l.drop (i + n + m)
    rw [show i + n + m = (l.take i ++ r₁).length + m by omega]
    rw [List.drop_append]
    rw [List.drop_drop]
    congr 1
    omega
  show (setSlice l i n r₁).take (i + n) ++ r₂ ++ (setSlice l i n r₁).drop (i + n + m)
      = l.take i ++ (r₁ ++ r₂) ++ l.drop (i + (n + m))
  rw [htake, hdrop]
  simp [List.append_assoc]
  rw [show i + n + m = i + (n + m) from by omega]

theorem getSlice_add (l : List Nat) (i n : Nat) :
    getSlice l i (n + 4) = getSlice l i n ++ getSlice l (i + n) 4 := by
  simp only [getSlice]
  rw [List.take_add]
  congr 1
  rw [List.drop_drop]

/-! ### The row copy: per-pixel loop versus contiguous block -/

theorem rowAux (N w xOff : Nat) (fp sheet : List Nat) (y : Nat)
    (hfp : (y + 1) * w * 4 ≤ fp.length)
    (hsheet : (y * w * N + xOff + w) * 4 ≤ sheet.length) :
    ∀ k, k ≤ w →
      (List.range k).foldl (fun s x => copyPixel N w xOff fp s y x) sheet
        = setSlice sheet ((y * w * N + xOff) * 4) (k * 4)
            (getSlice fp (y * w * 4) (k * 4)) := by
  have hfp4 : (y + 1) * w * 4 = y * w * 4 + w * 4 := by ring
  have hsh4 : (y * w * N + xOff + w) * 4 = (y * w * N + xOff) * 4 + w * 4 := by ring
  intro k
  induction k with
  | zero =>
      intro _
      simp [getSlice_zero, setSlice_zero]
  | succ k ih =>
      intro hk
      rw [List.range_succ, List.foldl_append]
      rw [ih (by omega)]
      show copyPixel N w xOff fp
          (setSlice sheet ((y * w * N + xOff) * 4) (k * 4) (getSlice fp (y * w * 4) (k * 4))) y k
        = setSlice sheet ((y * w * N + xOff) * 4) ((k + 1) * 4)
            (getSlice fp (y * w * 4) ((k + 1) * 4))
      have hd : dstIdx N w xOff y k = (y * w * N + xOff) * 4 + k * 4 := by
        simp [dstIdx]
        ring
      have hs : srcIdx w y k = y * w * 4 + k * 4 := by
        simp [srcIdx]
        ring
      have hblen : (getSlice fp (y * w * 4) (k * 4)).length = k * 4 :=
        getSlice_length fp (y * w * 4) (k * 4) (by omega)
      rw [copyPixel, hd, hs]
      rw [setSlice_setSlice sheet (getSlice fp (y * w * 4) (k * 4))
            (getSlice fp (y * w * 4 + k * 4) 4) ((y * w * N + xOff) * 4) (k * 4) 4
            hblen (by omega)]
      rw [← getSlice_add]
      rw [show k * 4 + 4 = (k + 1) * 4 from by ring]

/-- The per-pixel inner loop of the code computes exactly the spec's
per-row contiguous block copy. -/
theorem copyRowPixels_eq_specRowCopy (N w xOff : Nat) (fp sheet : List Nat) (y : Nat)
    (hfp : (y + 1) * w * 4 ≤ fp.length)
    (hsheet : (y * w * N + xOff + w) * 4 ≤ sheet.length) :
    copyRowPixels N w xOff fp y sheet = specRowCopy N w xOff fp y sheet := by
  have h := rowAux N w xOff fp sheet y hfp hsheet w (Nat.le_refl w)
  rw [copyRowPixels, specRowCopy]
  exact h

theorem copyRowPixels_length (N w xOff : Nat) (fp sheet : List Nat) (y : Nat)
    (hfp : (y + 1) * w * 4 ≤ fp.length)
    (hsheet : (y * w * N + xOff + w) * 4 ≤ sheet.length) :
    (copyRowPixels N w xOff fp y sheet).length = sheet.length := by
  rw [copyRowPixels_eq_specRowCopy N w xOff fp sheet y hfp hsheet, specRowCopy]
  have hfp4 : (y + 1) * w * 4 = y * w * 4 + w * 4 := by ring
  have hsh4 : (y * w * N + xOff + w) * 4 = (y * w * N + xOff) * 4 + w * 4 := by ring
  exact setSlice_length sheet (getSlice fp (y * w * 4) (w * 4))
    ((y * w * N + xOff) * 4) (w * 4)
    (getSlice_length fp (y * w * 4) (w * 4) (by omega)) (by omega)

/-! ### Copying one frame: length, written region, untouched region -/

theorem fpBound (w h y : Nat) (hy : y < h) : (y + 1) * w * 4 ≤ w * h * 4 := by
  have e1 : (y + 1) * w ≤ h * w := mul_le_mul_right' (by omega) w
  have e2 : h * w = w * h := by ring
  omega

theorem rowBound (N w h xOff y : Nat) (hxw : xOff + w ≤ w * N) (hy : y < h) :
    (y * w * N + xOff + w) * 4 ≤ N * w * h * 4 := by
  have e1 : (y + 1) * (w * N) = y * w * N + w * N := by ring
  have e2 : (y + 1) * (w * N) ≤ h * (w * N) := mul_le_mul_right' (by omega) (w * N)
  have e3 : h * (w * N) = N * w * h := by ring
  omega

theorem copyFrameAux_length (N w h xOff : Nat) (fp : List Nat)
    (hfp : fp.length = w * h * 4) (hxw : xOff + w ≤ w * N) :
    ∀ k, k ≤ h → ∀ sheet : List Nat, sheet.length = N * w * h * 4 →
      ((List.range k).foldl (fun s y => copyRowPixels N w xOff fp y s) sheet).length
        = N * w * h * 4 := by
  intro k
  induction k with
  | zero =>
      intro _ sheet hsheet
      simpa using hsheet
  | succ k ih =>
      intro hk sheet hsheet
      rw [List.range_succ, List.foldl_append]
      have hmid := ih (by omega) sheet hsheet
      show (copyRowPixels N w xOff fp k
          ((List.range k).foldl (fun s y => copyRowPixels N w xOff fp y s) sheet)).length
        = N * w * h * 4
      rw [copyRowPixels_length N w xOff fp _ k
            (by rw [hfp]; exact fpBound w h k (by omega))
            (by rw [hmid]; exact rowBound N w h xOff k hxw (by omega))]
      exact hmid

theorem copyFrame_length (N w h xOff : Nat) (fp sheet : List Nat)
    (hfp : fp.length = w * h * 4) (hxw : xOff + w ≤ w * N)
    (hsheet : sheet.length = N * w * h * 4) :
    (copyFrame N w h xOff fp sheet).length = N * w * h * 4 :=
  copyFrameAux_length N w h xOff fp hfp hxw h (Nat.le_refl h) sheet hsheet

theorem copyFrameAux_out (N w h xOff : Nat) (fp : List Nat) (pos : Nat)
    (hfp : fp.length = w * h * 4) (hxw : xOff + w ≤ w * N)
    (hout : ∀ y, y < h → pos < (y * w * N + xOff) * 4 ∨ (y * w * N + xOff) * 4 + w * 4 ≤ pos) :
    ∀ k, k ≤ h → ∀ sheet : List Nat, sheet.length = N * w * h * 4 →
      ((List.range k).foldl (fun s y => copyRowPixels N w xOff fp y s) sheet)[pos]?
        = sheet[pos]? := by
  intro k
  induction k with
  | zero =>
      intro _ sheet _
      simp
  | succ k ih =>
      intro hk sheet hsheet
      rw [List.range_succ, List.foldl_append]
      have hmid := copyFrameAux_length N w h xOff fp hfp hxw k (by omega) sheet hsheet
      show (copyRowPixels N w xOff fp k
          ((List.range k).foldl (fun s y => copyRowPixels N w xOff fp y s) sheet))[pos]?
        = sheet[pos]?
      rw [copyRowPixels_eq_specRowCopy N w xOff fp _ k
            (by rw [hfp]; exact fpBound w h k (by omega))
            (by rw [hmid]; exact rowBound N w h xOff k hxw (by omega))]
      rw [specRowCopy]
      have hr : (getSlice fp (k * w * 4) (w * 4)).length = w * 4 := by
        apply getSlice_length
        have := fpBound w h k (show k < h from by omega)
        have e : (k + 1) * w * 4 = k * w * 4 + w * 4 := by ring
        omega
      have hbound := rowBound N w h xOff k hxw (show k < h from by omega)
      have e4 : (k * w * N + xOff + w) * 4 = (k * w * N + xOff) * 4 + w * 4 := by ring
      rcases hout k (by omega) with hlt | hge
      · rw [setSlice_getElem_lt _ _ _ _ _ hlt (by omega)]
        exact ih (by omega) sheet hsheet
      · rw [setSlice_getElem_ge _ _ _ _ _ hr (by omega) hge]
        exact ih (by omega) sheet hsheet

theorem copyFrameAux_in (N w h xOff x c : Nat) (fp : List Nat)
    (hfp : fp.length = w * h * 4) (hxw : xOff + w ≤ w * N)
    (hx : x < w) (hc : c < 4) :
    ∀ k, k ≤ h → ∀ y, y < k → ∀ sheet : List Nat, sheet.length = N * w * h * 4 →
      ((List.range k).foldl (fun s y => copyRowPixels N w xOff fp y s) sheet)[(y * w * N + xOff + x) * 4 + c]?
        = fp[(y * w + x) * 4 + c]? := by
  intro k
  induction k with
  | zero =>
      intro _ y hy
      omega
  | succ k ih =>
      intro hk y hy sheet hsheet
      rw [List.range_succ, List.foldl_append]
      have hmid := copyFrameAux_length N w h xOff fp hfp hxw k (by omega) sheet hsheet
      show (copyRowPixels N w xOff fp k
          ((List.range k).foldl (fun s y => copyRowPixels N w xOff fp y s) sheet))[(y * w * N + xOff + x) * 4 + c]?
        = fp[(y * w + x) * 4 + c]?
      rw [copyRowPixels_eq_specRowCopy N w xOff fp _ k
            (by rw [hfp]; exact fpBound w h k (by omega))
            (by rw [hmid]; exact rowBound N w h xOff k hxw (by omega))]
      rw [specRowCopy]
      have hr : (getSlice fp (k * w * 4) (w * 4)).length = w * 4 := by
        apply getSlice_length
        have := fpBound w h k (show k < h from by omega)
        have e : (k + 1) * w * 4 = k * w * 4 + w * 4 := by ring
        omega
      have hbound := rowBound N w h xOff k hxw (show k < h from by omega)
      have e4 : (k * w * N + xOff + w) * 4 = (k * w * N + xOff) * 4 + w * 4 := by ring
      rcases Nat.lt_or_ge y k with hyk | hyk
      · have hpos : (y * w * N + xOff + x) * 4 + c < (k * w * N + xOff) * 4 := by
          have e1 : (y + 1) * (w * N) = y * w * N + w * N := by ring
          have e2 : (y + 1) * (w * N) ≤ k * (w * N) := mul_le_mul_right' (by omega) (w * N)
          have e3 : k * (w * N) = k * w * N := by ring
          omega
        rw [setSlice_getElem_lt _ _ _ _ _ hpos (by omega)]
        exact ih (by omega) y hyk sheet hsheet
      · have hyk2 : y = k := by omega
        subst hyk2
        rw [show (y * w * N + xOff + x) * 4 + c = (y * w * N + xOff) * 4 + (x * 4 + c) from by ring]
        rw [setSlice_getElem_mid _ _ _ _ _ (by rw [hr]; omega) (by omega)]
        rw [getSlice_getElem _ _ _ _ (by omega)]
        congr 1
        ring

theorem copyFrame_getElem_in (N w h xOff x y c : Nat) (fp sheet : List Nat)
    (hfp : fp.length = w * h * 4) (hxw : xOff + w ≤ w * N)
    (hx : x < w) (hy : y < h) (hc : c < 4)
    (hsheet : sheet.length = N * w * h * 4) :
    (copyFrame N w h xOff fp sheet)[(y * w * N + xOff + x) * 4 + c]?
      = fp[(y * w + x) * 4 + c]? :=
  copyFrameAux_in N w h xOff x c fp hfp hxw hx hc h (Nat.le_refl h) y hy sheet hsheet

theorem copyFrame_getElem_out (N w h xOff Y C c : Nat) (fp sheet : List Nat)
    (hfp : fp.length = w * h * 4) (hxw : xOff + w ≤ w * N)
    (hY : Y < h) (hC : C < w * N) (hc : c < 4)
    (hband : C < xOff ∨ xOff + w ≤ C)
    (hsheet : sheet.length = N * w * h * 4) :
    (copyFrame N w h xOff fp sheet)[(Y * w * N + C) * 4 + c]?
      = sheet[(Y * w * N + C) * 4 + c]? := by
  apply copyFrameAux_out N w h xOff fp _ hfp hxw _ h (Nat.le_refl h) sheet hsheet
  intro y hy
  rcases Nat.lt_trichotomy y Y with hlt | heq | hgt
  · right
    have e1 : (y + 1) * (w * N) = y * w * N + w * N := by ring
    have e2 : (y + 1) * (w * N) ≤ Y * (w * N) := mul_le_mul_right' (by omega) (w * N)
    have e3 : Y * (w * N) = Y * w * N := by ring
    omega
  · subst heq
    rcases hband with hb | hb
    · left
      omega
    · right
      omega
  · left
    have e1 : (Y + 1) * (w * N) = Y * w * N + w * N := by ring
    have e2 : (Y + 1) * (w * N) ≤ y * (w * N) := mul_le_mul_right' (by omega) (w * N)
    have e3 : y * (w * N) = y * w * N := by ring
    omega

/-! ### The frame loop -/

theorem offBound (N w i0 : Nat) (hi0 : i0 < N) : i0 * w + w ≤ w * N := by
  have e1 : (i0 + 1) * w = i0 * w + w := by ring
  have e2 : (i0 + 1) * w ≤ N * w := mul_le_mul_right' (by omega) w
  have e3 : N * w = w * N := by ring
  omega

theorem compositeAux_length (N w h : Nat) :
    ∀ (frames : List (List Nat)) (i0 : Nat) (sheet : List Nat),
      sheet.length = N * w * h * 4 → (∀ fp ∈ frames, fp.length = w * h * 4) →
      i0 + frames.length ≤ N →
      (compositeAux N w h frames i0 sheet).length = N * w * h * 4 := by
  intro frames
  induction frames with
  | nil =>
      intro i0 sheet hsheet _ _
      simpa [compositeAux] using hsheet
  | cons fp rest ih =>
      intro i0 sheet hsheet hwf hiN
      rw [compositeAux]
      apply ih
      · apply copyFrame_length
        · exact hwf fp (by simp)
        · exact offBound N w i0 (by simp at hiN; omega)
        · exact hsheet
      · intro q hq
        exact hwf q (by simp [hq])
      · simp at hiN ⊢
        omega

theorem compositeAux_out (N w h Y C c : Nat) (hY : Y < h) (hC : C < w * N) (hc : c < 4) :
    ∀ (frames : List (List Nat)) (i0 : Nat) (sheet : List Nat),
      sheet.length = N * w * h * 4 → (∀ fp ∈ frames, fp.length = w * h * 4) →
      i0 + frames.length ≤ N → C < i0 * w →
      (compositeAux N w h frames i0 sheet)[(Y * w * N + C) * 4 + c]?
        = sheet[(Y * w * N + C) * 4 + c]? := by
  intro frames
  induction frames with
  | nil =>
      intro i0 sheet _ _ _ _
      simp [compositeAux]
  | cons fp rest ih =>
      intro i0 sheet hsheet hwf hiN hCi
      have hi0 : i0 < N := by simp at hiN; omega
      have hfp : fp.length = w * h * 4 := hwf fp (by simp)
      rw [compositeAux]
      rw [ih (i0 + 1) _
            (copyFrame_length N w h (i0 * w) fp sheet hfp (offBound N w i0 hi0) hsheet)
            (fun q hq => hwf q (by simp [hq]))
            (by simp at hiN ⊢; omega)
            (by have e : (i0 + 1) * w = i0 * w + w := by ring
                omega)]
      exact copyFrame_getElem_out N w h (i0 * w) Y C c fp sheet hfp
        (offBound N w i0 hi0) hY hC hc (Or.inl hCi) hsheet

theorem compositeAux_in (N w h x y c : Nat) (hx : x < w) (hy : y < h) (hc : c < 4) :
    ∀ (frames : List (List Nat)) (j i0 : Nat) (sheet : List Nat),
      sheet.length = N * w * h * 4 → (∀ fp ∈ frames, fp.length = w * h * 4) →
      i0 + frames.length ≤ N → j < frames.length →
      (compositeAux N w h frames i0 sheet)[(y * w * N + (i0 + j) * w + x) * 4 + c]?
        = (frames.getD j [])[(y * w + x) * 4 + c]? := by
  intro frames
  induction frames with
  | nil =>
      intro j i0 sheet _ _ _ hj
      simp at hj
  | cons fp rest ih =>
      intro j i0 sheet hsheet hwf hiN hj
      have hi0 : i0 < N := by simp at hiN; omega
      have hfp : fp.length = w * h * 4 := hwf fp (by simp)
      have hoff := offBound N w i0 hi0
      have hmidlen := copyFrame_length N w h (i0 * w) fp sheet hfp hoff hsheet
      match j with
      | 0 =>
          rw [compositeAux]
          have hpos : (y * w * N + (i0 + 0) * w + x) * 4 + c
              = (y * w * N + (i0 * w + x)) * 4 + c := by ring
          rw [hpos]
          rw [compositeAux_out N w h y (i0 * w + x) c hy
                (by have e : (i0 + 1) * w = i0 * w + w := by ring
                    have e2 : (i0 + 1) * w ≤ N * w := mul_le_mul_right' (by omega) w
                    have e3 : N * w = w * N := by ring
                    omega)
                hc rest (i0 + 1) _ hmidlen
                (fun q hq => hwf q (by simp [hq]))
                (by simp at hiN ⊢; omega)
                (by have e : (i0 + 1) * w = i0 * w + w := by ring
                    omega)]
          rw [show (y * w * N + (i0 * w + x)) * 4 + c
              = (y * w * N + i0 * w + x) * 4 + c from by ring]
          rw [copyFrame_getElem_in N w h (i0 * w) x y c fp sheet hfp hoff hx hy hc hsheet]
          simp [List.getD]
      | j' + 1 =>
          rw [compositeAux]
          have hpos : (y * w * N + (i0 + (j' + 1)) * w + x) * 4 + c
              = (y * w * N + ((i0 + 1) + j') * w + x) * 4 + c := by ring
          rw [hpos]
          rw [ih j' (i0 + 1) _ hmidlen
                (fun q hq => hwf q (by simp [hq]))
                (by simp at hiN ⊢; omega)
                (by simp at hj; omega)]
          simp [List.getD]

theorem compositeFrames_getElem (N w h x y c j : Nat) (frames : List (List Nat))
    (sheet : List Nat) (hx : x < w) (hy : y < h) (hc : c < 4)
    (hsheet : sheet.length = N * w * h * 4)
    (hwf : ∀ fp ∈ frames, fp.length = w * h * 4)
    (hN : frames.length ≤ N) (hj : j < frames.length) :
    (compositeFrames N w h frames sheet)[(y * w * N + j * w + x) * 4 + c]?
      = (frames.getD j [])[(y * w + x) * 4 + c]? := by
  have h0 := compositeAux_in N w h x y c hx hy hc frames j 0 sheet hsheet hwf
    (by omega) hj
  simpa using h0

/-! ### Decomposition of sheet positions into (frame, row, column, channel) -/

theorem divmod_unique (B a b r s : Nat) (hr : r < B) (hs : s < B)
    (h : a * B + r = b * B + s) : a = b ∧ r = s := by
  have hB : 0 < B := Nat.lt_of_le_of_lt (Nat.zero_le r) hr
  have ha : (a * B + r) / B = a := by
    rw [Nat.mul_comm a B, Nat.mul_add_div hB, Nat.div_eq_of_lt hr, Nat.add_zero]
  have hb2 : (b * B + s) / B = b := by
    rw [Nat.mul_comm b B, Nat.mul_add_div hB, Nat.div_eq_of_lt hs, Nat.add_zero]
  have hab : a = b := by rw [← ha, h, hb2]
  subst hab
  exact ⟨rfl, Nat.add_left_cancel h⟩

theorem pos_decompose (N w h p : Nat) (hp : p < N * w * h * 4) :
    ∃ i y x c, i < N ∧ y < h ∧ x < w ∧ c < 4 ∧
      p = (y * w * N + i * w + x) * 4 + c := by
  have hN : 0 < N := by
    rcases Nat.eq_zero_or_pos N with h0 | h0
    · subst h0; simp at hp
    · exact h0
  have hw : 0 < w := by
    rcases Nat.eq_zero_or_pos w with h0 | h0
    · subst h0; simp at hp
    · exact h0
  have hh : 0 < h := by
    rcases Nat.eq_zero_or_pos h with h0 | h0
    · subst h0; simp at hp
    · exact h0
  have hwN : 0 < w * N := Nat.mul_pos hw hN
  refine ⟨(p / 4 % (w * N)) / w, p / 4 / (w * N), (p / 4 % (w * N)) % w, p % 4,
    ?_, ?_, ?_, ?_, ?_⟩
  · have hC : p / 4 % (w * N) < w * N := Nat.mod_lt _ hwN
    have e : w * N = N * w := by ring
    apply (Nat.div_lt_iff_lt_mul hw).mpr
    omega
  · apply (Nat.div_lt_iff_lt_mul hwN).mpr
    have hq : p / 4 < N * w * h := by
      apply (Nat.div_lt_iff_lt_mul (by omega)).mpr
      omega
    have e : h * (w * N) = N * w * h := by ring
    omega
  · exact Nat.mod_lt _ hw
  · exact Nat.mod_lt _ (by omega)
  · have e1 : 4 * (p / 4) + p % 4 = p := Nat.div_add_mod p 4
    have e2 : w * N * (p / 4 / (w * N)) + p / 4 % (w * N) = p / 4 :=
      Nat.div_add_mod (p / 4) (w * N)
    have e3 : w * ((p / 4 % (w * N)) / w) + (p / 4 % (w * N)) % w = p / 4 % (w * N) :=
      Nat.div_add_mod (p / 4 % (w * N)) w
    have e4 : (p / 4 / (w * N)) * w * N + ((p / 4 % (w * N)) / w) * w
        + (p / 4 % (w * N)) % w = p / 4 := by
      have r1 : (p / 4 / (w * N)) * w * N = w * N * (p / 4 / (w * N)) := by ring
      have r2 : ((p / 4 % (w * N)) / w) * w = w * ((p / 4 % (w * N)) / w) := by ring
      omega
    have e5 : ((p / 4 / (w * N)) * w * N + ((p / 4 % (w * N)) / w) * w
        + (p / 4 % (w * N)) % w) * 4 = (p / 4) * 4 := by
      rw [e4]
    omega

theorem pos_unique (N w h : Nat) (i y x c i2 y2 x2 c2 : Nat)
    (hi : i < N) (hy : y < h) (hx : x < w) (hc : c < 4)
    (hi2 : i2 < N) (hy2 : y2 < h) (hx2 : x2 < w) (hc2 : c2 < 4)
    (heq : (y * w * N + i * w + x) * 4 + c = (y2 * w * N + i2 * w + x2) * 4 + c2) :
    i = i2 ∧ y = y2 ∧ x = x2 ∧ c = c2 := by
  have h1 := divmod_unique 4 (y * w * N + i * w + x) (y2 * w * N + i2 * w + x2) c c2
    hc hc2 heq
  obtain ⟨hA, hcc⟩ := h1
  have hin : i * w + x < w * N := by
    have e1 : (i + 1) * w = i * w + w := by ring
    have e2 : (i + 1) * w ≤ N * w := mul_le_mul_right' (by omega) w
    have e3 : N * w = w * N := by ring
    omega
  have hin2 : i2 * w + x2 < w * N := by
    have e1 : (i2 + 1) * w = i2 * w + w := by ring
    have e2 : (i2 + 1) * w ≤ N * w := mul_le_mul_right' (by omega) w
    have e3 : N * w = w * N := by ring
    omega
  have hA2 : y * (w * N) + (i * w + x) = y2 * (w * N) + (i2 * w + x2) := by
    have r1 : y * (w * N) = y * w * N := by ring
    have r2 : y2 * (w * N) = y2 * w * N := by ring
    omega
  have h2 := divmod_unique (w * N) y y2 (i * w + x) (i2 * w + x2) hin hin2 hA2
  obtain ⟨hyy, hCC⟩ := h2
  have h3 := divmod_unique w i i2 x x2 hx hx2 hCC
  exact ⟨h3.1, hyy, h3.2, hcc⟩

/-- Filling of the sheet does not depend on the sheet buffer's initial
contents: every channel sample is overwritten. -/
theorem compositeFrames_init_indep (N w h : Nat) (frames : List (List Nat)) (s1 s2 : List Nat)
    (h1 : s1.length = N * w * h * 4) (h2 : s2.length = N * w * h * 4)
    (hN : frames.length = N) (hwf : ∀ fp ∈ frames, fp.length = w * h * 4) :
    compositeFrames N w h frames s1 = compositeFrames N w h frames s2 := by
  apply List.ext_getElem?
  intro p
  rcases Nat.lt_or_ge p (N * w * h * 4) with hp | hp
  · obtain ⟨i, y, x, c, hi, hy, hx, hc, hpe⟩ := pos_decompose N w h p hp
    subst hpe
    rw [compositeFrames_getElem N w h x y c i frames s1 hx hy hc h1 hwf (by omega) (by omega)]
    rw [compositeFrames_getElem N w h x y c i frames s2 hx hy hc h2 hwf (by omega) (by omega)]
  · have l1 : (compositeFrames N w h frames s1).length = N * w * h * 4 :=
      compositeAux_length N w h frames 0 s1 h1 hwf (by omega)
    have l2 : (compositeFrames N w h frames s2).length = N * w * h * 4 :=
      compositeAux_length N w h frames 0 s2 h2 hwf (by omega)
    rw [List.getElem?_eq_none (by omega), List.getElem?_eq_none (by omega)]

/-! ### The effectful shell: traces, failures, success -/

theorem loopFrom_fst_only_loads (loader : Nat → Option Image) (N w h : Nat) :
    ∀ (k i : Nat) (sheet : List Nat) (e : Event),
      e ∈ (loopFrom loader N w h i k sheet).fst → ∃ j, e = Event.loadFrame j := by
  intro k
  induction k with
  | zero =>
      intro i sheet e he
      simp [loopFrom] at he
  | succ k ih =>
      intro i sheet e he
      rcases hli : loader i with _ | img
      · simp [loopFrom, hli] at he
        exact ⟨i, he⟩
      · simp [loopFrom, hli] at he
        rcases he with he | he
        · exact ⟨i, he⟩
        · exact ih (i + 1) _ e he

theorem loopFrom_fst_indep (loader : Nat → Option Image) (N w h : Nat) :
    ∀ (k i : Nat) (s1 s2 : List Nat),
      (loopFrom loader N w h i k s1).fst = (loopFrom loader N w h i k s2).fst := by
  intro k
  induction k with
  | zero =>
      intro i s1 s2
      simp [loopFrom]
  | succ k ih =>
      intro i s1 s2
      rcases hli : loader i with _ | img
      · simp [loopFrom, hli]
      · simp [loopFrom, hli]
        exact ih (i + 1) _ _

theorem loopFrom_fail (loader : Nat → Option Image) (N w h : Nat) :
    ∀ (k i : Nat) (sheet : List Nat),
      (∃ j, i ≤ j ∧ j < i + k ∧ loader j = none) →
      ∃ j0, (loopFrom loader N w h i k sheet).snd = Except.error (Err.loadFailure j0) := by
  intro k
  induction k with
  | zero =>
      intro i sheet hex
      obtain ⟨j, hj1, hj2, _⟩ := hex
      omega
  | succ k ih =>
      intro i sheet hex
      rcases hli : loader i with _ | img
      · exact ⟨i, by simp [loopFrom, hli]⟩
      · obtain ⟨j, hj1, hj2, hjn⟩ := hex
        have hji : j ≠ i := by
          intro he
          rw [he, hli] at hjn
          exact Option.noConfusion hjn
        obtain ⟨j0, hj0⟩ := ih (i + 1)
          (copyFrame N w h ((i - 1) * w) img.pixels sheet)
          ⟨j, by omega, by omega, hjn⟩
        exact ⟨j0, by simp [loopFrom, hli]; exact hj0⟩

theorem framesFrom_exists (loader : Nat → Option Image) (L : Nat) :
    ∀ (k i : Nat),
      (∀ j, i ≤ j → j < i + k → ∃ img, loader j = some img ∧ img.pixels.length = L) →
      ∃ fs, framesFrom loader i k = some fs ∧ fs.length = k ∧
        ∀ fp ∈ fs, fp.length = L := by
  intro k
  induction k with
  | zero =>
      intro i _
      exact ⟨[], by simp [framesFrom]⟩
  | succ k ih =>
      intro i hall
      obtain ⟨img, hli, hlen⟩ := hall i (Nat.le_refl i) (by omega)
      obtain ⟨fs, hfs, hfsl, hfw⟩ := ih (i + 1) (fun j hj1 hj2 => hall j (by omega) (by omega))
      refine ⟨img.pixels :: fs, ?_, by simp [hfsl], ?_⟩
      · simp [framesFrom, hli, hfs]
      · intro fp hfp
        rcases List.mem_cons.mp hfp with he | he
        · rw [he]; exact hlen
        · exact hfw fp he

theorem loopFrom_snd_ok (loader : Nat → Option Image) (N w h : Nat) :
    ∀ (k i : Nat) (fs : List (List Nat)) (sheet : List Nat),
      framesFrom loader i k = some fs → 1 ≤ i →
      (loopFrom loader N w h i k sheet).snd
        = Except.ok (compositeAux N w h fs (i - 1) sheet) := by
  intro k
  induction k with
  | zero =>
      intro i fs sheet hfs _
      simp [framesFrom] at hfs
      subst hfs
      simp [loopFrom, compositeAux]
  | succ k ih =>
      intro i fs sheet hfs hi
      rcases hli : loader i with _ | img
      · simp [framesFrom, hli] at hfs
      · rcases hrest : framesFrom loader (i + 1) k with _ | rfs
        · simp [framesFrom, hli, hrest] at hfs
        · simp [framesFrom, hli, hrest] at hfs
          have step := ih (i + 1) rfs
            (copyFrame N w h ((i - 1) * w) img.pixels sheet) hrest (by omega)
          simp [loopFrom, hli]
          rw [step, ← hfs]
          rw [compositeAux]
          congr 2
          omega

theorem loopFrom_pixels_congr (loader loaderB : Nat → Option Image) (N w h : Nat)
    (hpix : ∀ j, Option.map Image.pixels (loader j) = Option.map Image.pixels (loaderB j)) :
    ∀ (k i : Nat) (sheet : List Nat),
      loopFrom loader N w h i k sheet = loopFrom loaderB N w h i k sheet := by
  intro k
  induction k with
  | zero =>
      intro i sheet
      simp [loopFrom]
  | succ k ih =>
      intro i sheet
      have hp := hpix i
      rcases hli : loader i with _ | img
      · rcases hlib : loaderB i with _ | imgB
        · simp [loopFrom, hli, hlib]
        · rw [hli, hlib] at hp
          simp at hp
      · rcases hlib : loaderB i with _ | imgB
        · rw [hli, hlib] at hp
          simp at hp
        · rw [hli, hlib] at hp
          simp at hp
          simp [loopFrom, hli, hlib, hp, ih]

/-! ### Claim theorems -/

/-- Claim C1: for every frame sequence of N ≥ 1 frames of identical
dimensions W×H, for every 1-indexed frame index i in [1,N] and every
pixel coordinate (x,y) with x < W, y < H, the composited output's pixel
at ((i-1)·W + x, y) equals frame i's pixel at (x,y), all four RGBA
channel samples copied exactly. -/
theorem sheet_pixel_eq_frame_pixel (N w h i x y : Nat)
    (frames : List (List Nat)) (sheet : List Nat)
    (hsheet : sheet.length = N * w * h * 4)
    (hN : frames.length = N)
    (hwf : ∀ fp ∈ frames, fp.length = w * h * 4)
    (hi1 : 1 ≤ i) (hiN : i ≤ N) (hx : x < w) (hy : y < h) :
    pixelAt (N * w) (compositeFrames N w h frames sheet) ((i - 1) * w + x) y
      = pixelAt w (frames.getD (i - 1) []) x y := by
  have houtlen : (compositeFrames N w h frames sheet).length = N * w * h * 4 :=
    compositeAux_length N w h frames 0 sheet hsheet hwf (by omega)
  have hfpmem : frames.getD (i - 1) [] ∈ frames := by
    rw [List.getD_eq_getElem frames [] (by omega)]
    exact List.getElem_mem (by omega)
  have hfplen : (frames.getD (i - 1) []).length = w * h * 4 := hwf _ hfpmem
  have hC : (i - 1) * w + x < w * N := by
    have e1 : (i - 1 + 1) * w = (i - 1) * w + w := by ring
    have e2 : (i - 1 + 1) * w ≤ N * w := mul_le_mul_right' (by omega) w
    have e3 : N * w = w * N := by ring
    omega
  have hdst : (y * (N * w) + ((i - 1) * w + x)) * 4 + 4 ≤ N * w * h * 4 := by
    have e0 : y * (N * w) = y * w * N := by ring
    have e1 : (y + 1) * (w * N) = y * w * N + w * N := by ring
    have e2 : (y + 1) * (w * N) ≤ h * (w * N) := mul_le_mul_right' (by omega) (w * N)
    have e3 : h * (w * N) = N * w * h := by ring
    omega
  have hsrc : (y * w + x) * 4 + 4 ≤ w * h * 4 := by
    have e1 : (y + 1) * w = y * w + w := by ring
    have e2 : (y + 1) * w ≤ h * w := mul_le_mul_right' (by omega) w
    have e3 : h * w = w * h := by ring
    omega
  apply List.ext_getElem?
  intro j
  rcases Nat.lt_or_ge j 4 with hj | hj
  · rw [pixelAt, pixelAt]
    rw [getSlice_getElem _ _ _ _ hj, getSlice_getElem _ _ _ _ hj]
    rw [show (y * (N * w) + ((i - 1) * w + x)) * 4 + j
        = (y * w * N + (i - 1) * w + x) * 4 + j from by ring]
    exact compositeFrames_getElem N w h x y j (i - 1) frames sheet hx hy hj
      hsheet hwf (by omega) (by omega)
  · have hl1 : (pixelAt (N * w) (compositeFrames N w h frames sheet) ((i - 1) * w + x) y).length = 4 := by
      rw [pixelAt]
      exact getSlice_length _ _ _ (by omega)
    have hl2 : (pixelAt w (frames.getD (i - 1) []) x y).length = 4 := by
      rw [pixelAt]
      exact getSlice_length _ _ _ (by omega)
    rw [List.getElem?_eq_none (by omega), List.getElem?_eq_none (by omega)]

/-- Concrete instance of C1: two 1×1 frames, checking the second
frame's pixel in the composited sheet. -/
theorem sheet_pixel_eq_frame_pixel_witness :
    pixelAt (2 * 1) (compositeFrames 2 1 1 [[1, 2, 3, 4], [5, 6, 7, 8]]
        (List.replicate 8 0)) ((2 - 1) * 1 + 0) 0
      = pixelAt 1 ([[1, 2, 3, 4], [5, 6, 7, 8]].getD (2 - 1) []) 0 0 :=
  sheet_pixel_eq_frame_pixel 2 1 1 2 0 0 [[1, 2, 3, 4], [5, 6, 7, 8]]
    (List.replicate 8 0) (by decide) (by decide) (by decide)
    (by decide) (by decide) (by decide) (by decide)

theorem loopFrom_ok_of_isSome (loader : Nat → Option Image) (N w h : Nat) :
    ∀ (k i : Nat) (sheet : List Nat),
      (∀ j, i ≤ j → j < i + k → (loader j).isSome = true) →
      ∃ out, (loopFrom loader N w h i k sheet).snd = Except.ok out := by
  intro k
  induction k with
  | zero =>
      intro i sheet _
      exact ⟨sheet, by simp [loopFrom]⟩
  | succ k ih =>
      intro i sheet hall
      rcases hli : loader i with _ | img
      · have := hall i (Nat.le_refl i) (by omega)
        rw [hli] at this
        simp at this
      · obtain ⟨out, hout⟩ := ih (i + 1)
          (copyFrame N w h ((i - 1) * w) img.pixels sheet)
          (fun j h1 h2 => hall j (by omega) (by omega))
        exact ⟨out, by simp [loopFrom, hli]; exact hout⟩

theorem run_eq_err (N : Nat) (loader : Nat → Option Image) (nI : Nat → Nat → List Nat)
    (f1 : Image) (e : Err) (hl1 : loader 1 = some f1)
    (hres : (loopFrom loader N f1.width f1.height 1 N (nI (f1.width * N) f1.height)).snd
      = Except.error e) :
    render_sprite_sheet N loader nI
      = (Event.loadFrame 1
          :: (loopFrom loader N f1.width f1.height 1 N (nI (f1.width * N) f1.height)).fst,
         Except.error e) := by
  unfold render_sprite_sheet
  rw [hl1]
  simp only [hres]

theorem run_eq_ok (N : Nat) (loader : Nat → Option Image) (nI : Nat → Nat → List Nat)
    (f1 : Image) (px : List Nat) (hl1 : loader 1 = some f1)
    (hres : (loopFrom loader N f1.width f1.height 1 N (nI (f1.width * N) f1.height)).snd
      = Except.ok px) :
    render_sprite_sheet N loader nI
      = (Event.loadFrame 1
          :: (loopFrom loader N f1.width f1.height 1 N (nI (f1.width * N) f1.height)).fst
          ++ [Event.writeSheet, Event.rmtree],
         Except.ok (Image.mk (f1.width * N) f1.height true px)) := by
  unfold render_sprite_sheet
  rw [hl1]
  simp only [hres]

/-- Claim C2: for every frame sequence of N ≥ 1 frames of identical
dimensions W×H, the output image has width exactly N·W, height exactly
H, four channels per pixel and alpha enabled (the flat RGBA buffer has
length N·W·H·4). -/
theorem output_sheet_dims (N : Nat) (loader : Nat → Option Image)
    (nI : Nat → Nat → List Nat) (f1 : Image)
    (hl1 : loader 1 = some f1)
    (hload : ∀ j, 1 ≤ j → j < 1 + N →
      ∃ img, loader j = some img ∧ img.pixels.length = f1.width * f1.height * 4)
    (hnI : ∀ a b, (nI a b).length = a * b * 4) :
    ∃ sheet, (render_sprite_sheet N loader nI).snd = Except.ok sheet ∧
      sheet.width = N * f1.width ∧ sheet.height = f1.height ∧
      sheet.alpha = true ∧
      sheet.pixels.length = N * f1.width * f1.height * 4 := by
  obtain ⟨fs, hfsome, hfslen, hfw⟩ :=
    framesFrom_exists loader (f1.width * f1.height * 4) N 1 hload
  have hsnd := loopFrom_snd_ok loader N f1.width f1.height N 1 fs
    (nI (f1.width * N) f1.height) hfsome (Nat.le_refl 1)
  rw [run_eq_ok N loader nI f1 _ hl1 hsnd]
  refine ⟨_, rfl, by simp [Nat.mul_comm], rfl, rfl, ?_⟩
  show (compositeAux N f1.width f1.height fs (1 - 1)
      (nI (f1.width * N) f1.height)).length = N * f1.width * f1.height * 4
  have hinit : (nI (f1.width * N) f1.height).length
      = N * f1.width * f1.height * 4 := by
    rw [hnI]
    ring
  exact compositeAux_length N f1.width f1.height fs (1 - 1) _ hinit hfw (by omega)

/-- Concrete instance of C2: a single 1×1 frame yields a 1×1 RGBA sheet. -/
theorem output_sheet_dims_witness :
    ∃ sheet, (render_sprite_sheet 1
        (fun j => if j = 1 then some (Image.mk 1 1 true [1, 2, 3, 4]) else none)
        (fun a b => List.replicate (a * b * 4) 0)).snd = Except.ok sheet ∧
      sheet.width = 1 * 1 ∧ sheet.height = 1 ∧
      sheet.alpha = true ∧
      sheet.pixels.length = 1 * 1 * 1 * 4 := by
  have h := output_sheet_dims 1
    (fun j => if j = 1 then some (Image.mk 1 1 true [1, 2, 3, 4]) else none)
    (fun a b => List.replicate (a * b * 4) 0)
    (Image.mk 1 1 true [1, 2, 3, 4])
    (by simp)
    (by
      intro j hj1 hj2
      have hj : j = 1 := by omega
      subst hj
      exact ⟨Image.mk 1 1 true [1, 2, 3, 4], by simp⟩)
    (by intro a b; simp)
  exact h

/-- Claim C3: if loading any frame i in [1,N] fails, the whole run
aborts with a load failure and the sheet is never written (no output
file, not even a partial one). -/
theorem load_failure_aborts (N j : Nat) (loader : Nat → Option Image)
    (nI : Nat → Nat → List Nat)
    (hj1 : 1 ≤ j) (hjN : j ≤ N) (hfail : loader j = none) :
    (∃ j0, (render_sprite_sheet N loader nI).snd = Except.error (Err.loadFailure j0)) ∧
    Event.writeSheet ∉ (render_sprite_sheet N loader nI).fst := by
  rcases hl1 : loader 1 with _ | f1
  · constructor
    · exact ⟨1, by simp [render_sprite_sheet, hl1]⟩
    · simp [render_sprite_sheet, hl1]
  · obtain ⟨j0, hj0⟩ := loopFrom_fail loader N f1.width f1.height N 1
      (nI (f1.width * N) f1.height) ⟨j, by omega, by omega, hfail⟩
    rw [run_eq_err N loader nI f1 (Err.loadFailure j0) hl1 hj0]
    refine ⟨⟨j0, rfl⟩, ?_⟩
    intro hmem
    rcases List.mem_cons.mp hmem with he | he
    · exact Event.noConfusion he
    · obtain ⟨j2, hj2⟩ := loopFrom_fst_only_loads loader N f1.width f1.height N 1 _
        Event.writeSheet he
      exact Event.noConfusion hj2

/-- Concrete instance of C3: the only frame of a 1-frame run fails to
load; the run errors and never writes. -/
theorem load_failure_aborts_witness :
    (∃ j0, (render_sprite_sheet 1 (fun _ => none)
        (fun a b => List.replicate (a * b * 4) 0)).snd
      = Except.error (Err.loadFailure j0)) ∧
    Event.writeSheet ∉ (render_sprite_sheet 1 (fun _ => none)
        (fun a b => List.replicate (a * b * 4) 0)).fst :=
  load_failure_aborts 1 1 (fun _ => none) (fun a b => List.replicate (a * b * 4) 0)
    (by decide) (by decide) rfl

/-- Claim C6: when the frame sequence is empty (the first frame is
unavailable), the run fails with a load failure before any output file
is created. -/
theorem empty_sequence_fails (N : Nat) (loader : Nat → Option Image)
    (nI : Nat → Nat → List Nat) (h1 : loader 1 = none) :
    (render_sprite_sheet N loader nI).snd = Except.error (Err.loadFailure 1) ∧
    Event.writeSheet ∉ (render_sprite_sheet N loader nI).fst := by
  constructor
  · simp [render_sprite_sheet, h1]
  · simp [render_sprite_sheet, h1]

/-- Concrete instance of C6: an empty scratch directory (no frame
loads at all) makes the 25-frame run fail without writing. -/
theorem empty_sequence_fails_witness :
    (render_sprite_sheet FRAME_COUNT (fun _ => none)
        (fun a b => List.replicate (a * b * 4) 0)).snd
      = Except.error (Err.loadFailure 1) ∧
    Event.writeSheet ∉ (render_sprite_sheet FRAME_COUNT (fun _ => none)
        (fun a b => List.replicate (a * b * 4) 0)).fst :=
  empty_sequence_fails FRAME_COUNT (fun _ => none)
    (fun a b => List.replicate (a * b * 4) 0) rfl

/-- C5 counterexample: a failing compositing run after which the
scratch directory was NOT removed (the claim says removal is
unconditional, also on failure).  The run with no loadable frames
errors out and its trace contains no `rmtree`. -/
theorem scratch_not_removed_on_failure :
    Event.rmtree ∉ (render_sprite_sheet FRAME_COUNT (fun _ => none)
        (fun a b => List.replicate (a * b * 4) 0)).fst ∧
    isOkE (render_sprite_sheet FRAME_COUNT (fun _ => none)
        (fun a b => List.replicate (a * b * 4) 0)).snd = false := by
  constructor
  · simp [render_sprite_sheet, FRAME_COUNT]
  · simp [render_sprite_sheet, FRAME_COUNT, isOkE]

/-- Claim C5 (amended): the scratch directory is removed exactly when
the run completes successfully; on a load failure the run aborts
before the cleanup and the scratch directory is leaked. -/
theorem rmtree_iff_success (N : Nat) (loader : Nat → Option Image)
    (nI : Nat → Nat → List Nat) :
    Event.rmtree ∈ (render_sprite_sheet N loader nI).fst ↔
      isOkE (render_sprite_sheet N loader nI).snd = true := by
  rcases hl1 : loader 1 with _ | f1
  · simp [render_sprite_sheet, hl1, isOkE]
  · rcases hres : (loopFrom loader N f1.width f1.height 1 N
        (nI (f1.width * N) f1.height)).snd with e | px
    · rw [run_eq_err N loader nI f1 e hl1 hres]
      simp only [isOkE]
      constructor
      · intro hmem
        rcases List.mem_cons.mp hmem with he | he
        · exact Event.noConfusion he
        · obtain ⟨j2, hj2⟩ := loopFrom_fst_only_loads loader N f1.width f1.height N 1 _
            Event.rmtree he
          exact Event.noConfusion hj2
      · intro hfalse
        exact Bool.noConfusion hfalse
    · rw [run_eq_ok N loader nI f1 px hl1 hres]
      simp [isOkE]

/-- Claim C8: the compositor is deterministic.  Its output depends only
on the frame sequence: two runs over the same frames produce identical
results (identical traces and byte-identical sheets) even if the host
hands out sheet buffers with different initial contents. -/
theorem deterministic_output (N : Nat) (loader : Nat → Option Image)
    (nI1 nI2 : Nat → Nat → List Nat) (f1 : Image)
    (hl1 : loader 1 = some f1)
    (hload : ∀ j, 1 ≤ j → j < 1 + N →
      ∃ img, loader j = some img ∧ img.pixels.length = f1.width * f1.height * 4)
    (hn1 : ∀ a b, (nI1 a b).length = a * b * 4)
    (hn2 : ∀ a b, (nI2 a b).length = a * b * 4) :
    render_sprite_sheet N loader nI1 = render_sprite_sheet N loader nI2 := by
  obtain ⟨fs, hfsome, hfslen, hfw⟩ :=
    framesFrom_exists loader (f1.width * f1.height * 4) N 1 hload
  have hs1 := loopFrom_snd_ok loader N f1.width f1.height N 1 fs
    (nI1 (f1.width * N) f1.height) hfsome (Nat.le_refl 1)
  have hs2 := loopFrom_snd_ok loader N f1.width f1.height N 1 fs
    (nI2 (f1.width * N) f1.height) hfsome (Nat.le_refl 1)
  rw [run_eq_ok N loader nI1 f1 _ hl1 hs1, run_eq_ok N loader nI2 f1 _ hl1 hs2]
  have hfst := loopFrom_fst_indep loader N f1.width f1.height N 1
    (nI1 (f1.width * N) f1.height) (nI2 (f1.width * N) f1.height)
  have hpx : compositeAux N f1.width f1.height fs (1 - 1) (nI1 (f1.width * N) f1.height)
      = compositeAux N f1.width f1.height fs (1 - 1) (nI2 (f1.width * N) f1.height) := by
    show compositeFrames N f1.width f1.height fs (nI1 (f1.width * N) f1.height)
        = compositeFrames N f1.width f1.height fs (nI2 (f1.width * N) f1.height)
    apply compositeFrames_init_indep
    · rw [hn1]; ring
    · rw [hn2]; ring
    · exact hfslen
    · exact hfw
  rw [hfst, hpx]

/-- Concrete instance of C8: the same single-frame sequence composited
over two differently initialized host buffers gives identical runs. -/
theorem deterministic_output_witness :
    render_sprite_sheet 1
        (fun j => if j = 1 then some (Image.mk 1 1 true [1, 2, 3, 4]) else none)
        (fun a b => List.replicate (a * b * 4) 0)
      = render_sprite_sheet 1
        (fun j => if j = 1 then some (Image.mk 1 1 true [1, 2, 3, 4]) else none)
        (fun a b => List.replicate (a * b * 4) 7) :=
  deterministic_output 1
    (fun j => if j = 1 then some (Image.mk 1 1 true [1, 2, 3, 4]) else none)
    (fun a b => List.replicate (a * b * 4) 0)
    (fun a b => List.replicate (a * b * 4) 7)
    (Image.mk 1 1 true [1, 2, 3, 4])
    (by simp)
    (by
      intro j hj1 hj2
      have hj : j = 1 := by omega
      subst hj
      exact ⟨Image.mk 1 1 true [1, 2, 3, 4], by simp⟩)
    (by intro a b; simp)
    (by intro a b; simp)

/-- Claim C4: the compositor never validates frame dimensions.  Its
behaviour depends only on the first frame's record and on the pixel
buffers of the other frames — changing the recorded dimensions of
frames 2..N does not change the run at all — and a run whose loads all
succeed completes without any dimension-mismatch failure. -/
theorem ignores_frame_dims (N : Nat) (loader loaderB : Nat → Option Image)
    (nI : Nat → Nat → List Nat)
    (hN : 1 ≤ N)
    (h1 : loader 1 = loaderB 1)
    (hpix : ∀ j, Option.map Image.pixels (loader j) = Option.map Image.pixels (loaderB j))
    (hok : ∀ j, 1 ≤ j → j < 1 + N → (loader j).isSome = true) :
    render_sprite_sheet N loader nI = render_sprite_sheet N loaderB nI ∧
    ∃ img, (render_sprite_sheet N loader nI).snd = Except.ok img := by
  rcases hl1 : loader 1 with _ | f1
  · have h := hok 1 (Nat.le_refl 1) (by omega)
    rw [hl1] at h
    simp at h
  · have hlb1 : loaderB 1 = some f1 := by rw [← h1, hl1]
    have hcong := loopFrom_pixels_congr loader loaderB N f1.width f1.height hpix N 1
      (nI (f1.width * N) f1.height)
    obtain ⟨out, hout⟩ := loopFrom_ok_of_isSome loader N f1.width f1.height N 1
      (nI (f1.width * N) f1.height) hok
    have houtB : (loopFrom loaderB N f1.width f1.height 1 N
        (nI (f1.width * N) f1.height)).snd = Except.ok out := by
      rw [← hcong]
      exact hout
    constructor
    · rw [run_eq_ok N loader nI f1 out hl1 hout,
          run_eq_ok N loaderB nI f1 out hlb1 houtB]
      have hfst : (loopFrom loader N f1.width f1.height 1 N
            (nI (f1.width * N) f1.height)).fst
          = (loopFrom loaderB N f1.width f1.height 1 N
            (nI (f1.width * N) f1.height)).fst := by
        rw [hcong]
      rw [hfst]
    · rw [run_eq_ok N loader nI f1 out hl1 hout]
      exact ⟨_, rfl⟩

/-- Concrete instance of C4: frame 2's recorded dimensions are changed
from 1×1 to 9×3 (its pixel buffer kept); the run is unchanged and
succeeds — no dimension mismatch is ever detected. -/
theorem ignores_frame_dims_witness :
    render_sprite_sheet 2
        (fun j => if j = 1 then some (Image.mk 1 1 true [1, 2, 3, 4])
          else if j = 2 then some (Image.mk 1 1 true [5, 6, 7, 8]) else none)
        (fun a b => List.replicate (a * b * 4) 0)
      = render_sprite_sheet 2
        (fun j => if j = 1 then some (Image.mk 1 1 true [1, 2, 3, 4])
          else if j = 2 then some (Image.mk 9 3 false [5, 6, 7, 8]) else none)
        (fun a b => List.replicate (a * b * 4) 0) ∧
    ∃ img, (render_sprite_sheet 2
        (fun j => if j = 1 then some (Image.mk 1 1 true [1, 2, 3, 4])
          else if j = 2 then some (Image.mk 1 1 true [5, 6, 7, 8]) else none)
        (fun a b => List.replicate (a * b * 4) 0)).snd = Except.ok img :=
  ignores_frame_dims 2
    (fun j => if j = 1 then some (Image.mk 1 1 true [1, 2, 3, 4])
      else if j = 2 then some (Image.mk 1 1 true [5, 6, 7, 8]) else none)
    (fun j => if j = 1 then some (Image.mk 1 1 true [1, 2, 3, 4])
      else if j = 2 then some (Image.mk 9 3 false [5, 6, 7, 8]) else none)
    (fun a b => List.replicate (a * b * 4) 0)
    (by decide)
    (by simp)
    (by
      intro j
      by_cases hj1 : j = 1
      · simp [hj1]
      · by_cases hj2 : j = 2
        · simp [hj1, hj2]
        · simp [hj1, hj2])
    (by
      intro j hj1 hj2
      have hj : j = 1 ∨ j = 2 := by omega
      rcases hj with hj | hj <;> simp [hj])

theorem copyFrameAux_blocks (N w h xOff : Nat) (fp : List Nat)
    (hfp : fp.length = w * h * 4) (hxw : xOff + w ≤ w * N) :
    ∀ k, k ≤ h → ∀ sheet : List Nat, sheet.length = N * w * h * 4 →
      (List.range k).foldl (fun s y => copyRowPixels N w xOff fp y s) sheet
        = (List.range k).foldl (fun s y => specRowCopy N w xOff fp y s) sheet := by
  intro k
  induction k with
  | zero =>
      intro _ sheet _
      simp
  | succ k ih =>
      intro hk sheet hsheet
      rw [List.range_succ, List.foldl_append, List.foldl_append]
      rw [ih (by omega) sheet hsheet]
      have hlen : ((List.range k).foldl (fun s y => specRowCopy N w xOff fp y s) sheet).length
          = N * w * h * 4 := by
        rw [← ih (by omega) sheet hsheet]
        exact copyFrameAux_length N w h xOff fp hfp hxw k (by omega) sheet hsheet
      show copyRowPixels N w xOff fp k
          ((List.range k).foldl (fun s y => specRowCopy N w xOff fp y s) sheet)
        = specRowCopy N w xOff fp k
          ((List.range k).foldl (fun s y => specRowCopy N w xOff fp y s) sheet)
      exact copyRowPixels_eq_specRowCopy N w xOff fp _ k
        (by rw [hfp]; exact fpBound w h k (by omega))
        (by rw [hlen]; exact rowBound N w h xOff k hxw (by omega))

/-- Claim C7: copying one frame into the sheet — the per-pixel loop of
the code over rows y and columns x — is extensionally equal to the
spec's per-row algorithm that transfers, for each row y in increasing
order, the contiguous run of W·4 channel samples of the frame's row y
into the output row y at column offset xOff as one block copy. -/
theorem frame_copy_row_blocks (N w h xOff : Nat) (fp sheet : List Nat)
    (hfp : fp.length = w * h * 4) (hxw : xOff + w ≤ w * N)
    (hsheet : sheet.length = N * w * h * 4) :
    copyFrame N w h xOff fp sheet
      = (List.range h).foldl (fun s y => specRowCopy N w xOff fp y s) sheet := by
  rw [copyFrame]
  exact copyFrameAux_blocks N w h xOff fp hfp hxw h (Nat.le_refl h) sheet hsheet

/-- Concrete instance of C7: one 1×2 frame copied per-pixel equals the
per-row block copy. -/
theorem frame_copy_row_blocks_witness :
    copyFrame 1 1 2 0 [1, 2, 3, 4, 5, 6, 7, 8] (List.replicate 8 0)
      = (List.range 2).foldl (fun s y => specRowCopy 1 1 0 [1, 2, 3, 4, 5, 6, 7, 8] y s)
          (List.replicate 8 0) :=
  frame_copy_row_blocks 1 1 2 0 [1, 2, 3, 4, 5, 6, 7, 8] (List.replicate 8 0)
    (by decide) (by decide) (by decide)

/-- Claim C9: under the identical-dimensions precondition, every
source index and destination index computed during compositing lies
within the corresponding buffer (with room for its 4 samples), and the
sheet buffer's length stays exactly N·W·H·4 through all the slice
assignments. -/
theorem indices_in_bounds (N w h : Nat) (frames : List (List Nat)) (sheet : List Nat)
    (hsheet : sheet.length = N * w * h * 4)
    (hN : frames.length = N)
    (hwf : ∀ fp ∈ frames, fp.length = w * h * 4) :
    (∀ i y x, i < N → y < h → x < w →
      srcIdx w y x + 4 ≤ w * h * 4 ∧ dstIdx N w (i * w) y x + 4 ≤ N * w * h * 4) ∧
    (compositeFrames N w h frames sheet).length = N * w * h * 4 := by
  constructor
  · intro i y x hi hy hx
    constructor
    · rw [srcIdx]
      have e1 : (y + 1) * w = y * w + w := by ring
      have e2 : (y + 1) * w ≤ h * w := mul_le_mul_right' (by omega) w
      have e3 : h * w = w * h := by ring
      omega
    · rw [dstIdx]
      have e1 : (i + 1) * w = i * w + w := by ring
      have e2 : (i + 1) * w ≤ N * w := mul_le_mul_right' (by omega) w
      have e3 : N * w = w * N := by ring
      have e4 : (y + 1) * (w * N) = y * w * N + w * N := by ring
      have e5 : (y + 1) * (w * N) ≤ h * (w * N) := mul_le_mul_right' (by omega) (w * N)
      have e6 : h * (w * N) = N * w * h := by ring
      omega
  · exact compositeAux_length N w h frames 0 sheet hsheet hwf (by omega)

/-- Concrete instance of C9: two 1×1 frames. -/
theorem indices_in_bounds_witness :
    (∀ i y x, i < 2 → y < 1 → x < 1 →
      srcIdx 1 y x + 4 ≤ 1 * 1 * 4 ∧ dstIdx 2 1 (i * 1) y x + 4 ≤ 2 * 1 * 1 * 4) ∧
    (compositeFrames 2 1 1 [[1, 2, 3, 4], [5, 6, 7, 8]] (List.replicate 8 0)).length
      = 2 * 1 * 1 * 4 :=
  indices_in_bounds 2 1 1 [[1, 2, 3, 4], [5, 6, 7, 8]] (List.replicate 8 0)
    (by decide) (by decide) (by decide)

/-- Claim C10: under the identical-dimensions precondition every
channel sample of the sheet is written by exactly one loop iteration
(the destination regions of the frames are disjoint and exhaustive),
and consequently two runs differing only in the sheet buffer's initial
pixel values produce identical output. -/
theorem overwrite_once_init_indep (N w h : Nat) (frames : List (List Nat))
    (s1 s2 : List Nat)
    (h1 : s1.length = N * w * h * 4) (h2 : s2.length = N * w * h * 4)
    (hN : frames.length = N)
    (hwf : ∀ fp ∈ frames, fp.length = w * h * 4) :
    (∀ p, p < N * w * h * 4 → ∃! t : Nat × Nat × Nat × Nat,
      (t.1 < N ∧ t.2.1 < h ∧ t.2.2.1 < w ∧ t.2.2.2 < 4) ∧
      dstIdx N w (t.1 * w) t.2.1 t.2.2.1 + t.2.2.2 = p) ∧
    compositeFrames N w h frames s1 = compositeFrames N w h frames s2 := by
  constructor
  · intro p hp
    obtain ⟨i, y, x, c, hi, hy, hx, hc, hpe⟩ := pos_decompose N w h p hp
    refine ⟨(i, y, x, c), ⟨⟨hi, hy, hx, hc⟩, ?_⟩, ?_⟩
    · show dstIdx N w (i * w) y x + c = p
      rw [dstIdx]
      omega
    · rintro ⟨i2, y2, x2, c2⟩ ⟨⟨g1, g2, g3, g4⟩, geq⟩
      have geq2 : dstIdx N w (i2 * w) y2 x2 + c2 = p := geq
      have g1b : i2 < N := g1
      have g2b : y2 < h := g2
      have g3b : x2 < w := g3
      have g4b : c2 < 4 := g4
      rw [dstIdx] at geq2
      have hu := pos_unique N w h i2 y2 x2 c2 i y x c g1b g2b g3b g4b hi hy hx hc
        (by omega)
      obtain ⟨e1, e2, e3, e4⟩ := hu
      subst e1
      subst e2
      subst e3
      subst e4
      rfl
  · exact compositeFrames_init_indep N w h frames s1 s2 h1 h2 hN hwf

/-- Concrete instance of C10: one 1×1 frame over two different initial
sheet buffers. -/
theorem overwrite_once_init_indep_witness :
    (∀ p, p < 1 * 1 * 1 * 4 → ∃! t : Nat × Nat × Nat × Nat,
      (t.1 < 1 ∧ t.2.1 < 1 ∧ t.2.2.1 < 1 ∧ t.2.2.2 < 4) ∧
      dstIdx 1 1 (t.1 * 1) t.2.1 t.2.2.1 + t.2.2.2 = p) ∧
    compositeFrames 1 1 1 [[9, 9, 9, 9]] (List.replicate 4 0)
      = compositeFrames 1 1 1 [[9, 9, 9, 9]] (List.replicate 4 5) :=
  overwrite_once_init_indep 1 1 1 [[9, 9, 9, 9]] (List.replicate 4 0)
    (List.replicate 4 5) (by decide) (by decide) (by decide) (by decide)
